import Mathlib

/-!
# Refund contract and Merkle commitment builder: a shallow embedding

Verification development for a refund system consisting of

* an off-chain commitment builder (TypeScript: `merkletreejs` with
  `sortPairs: true`, leaves `keccak256(solidityPack(address, uint256))`,
  decimal amounts scaled with ethers v5 `parseUnits`), and
* an on-chain state machine (`Refund.sol`: `claimRefund` guarded by a
  reentrancy guard, deadline check, claimed flag and OpenZeppelin
  `MerkleProof.verify`; owner-only `withdraw`).

The hash function is kept abstract as a parameter `H : List Nat → List Nat`
on byte strings; node values are byte lists.  The contract compares
`bytes32` values numerically while `merkletreejs` compares buffers
lexicographically, so the development proves the two orders agree on
equal-length byte strings and threads the "32 valid bytes" invariant
through the tree layers.
-/

/-- Big-endian byte encoding of `n` on exactly `w` bytes (the Solidity
`abi.encodePacked` encoding of a `uintN` value, most significant byte
first). -/
def natToBytes : Nat → Nat → List Nat
  | 0, _ => []
  | w + 1, n => (n / 256 ^ w) % 256 :: natToBytes w n

theorem natToBytes_length (w n : Nat) : (natToBytes w n).length = w := by
  induction w generalizing n with
  | zero => rfl
  | succ w ih => simp [natToBytes, ih]

theorem natToBytes_bytes_lt (w n : Nat) : ∀ d ∈ natToBytes w n, d < 256 := by
  induction w generalizing n with
  | zero => simp [natToBytes]
  | succ w ih =>
    intro d hd
    simp only [natToBytes, List.mem_cons] at hd
    rcases hd with h | h
    · omega
    · exact ih n d h

/-- The numeric value of a big-endian byte string (how the EVM reads a
`bytes32` word as a `uint256`). -/
def bytesToNat (l : List Nat) : Nat :=
  l.foldl (fun acc d => acc * 256 + d) 0

theorem bytesToNat_foldl (l : List Nat) :
    ∀ acc, l.foldl (fun a d => a * 256 + d) acc = acc * 256 ^ l.length + bytesToNat l := by
  induction l with
  | nil => intro acc; simp [bytesToNat]
  | cons x xs ih =>
    intro acc
    have hx : bytesToNat (x :: xs) = x * 256 ^ xs.length + bytesToNat xs := by
      show List.foldl _ (0 * 256 + x) xs = _
      rw [show 0 * 256 + x = x by ring, ih x]
    simp only [List.foldl_cons, List.length_cons, hx, ih (acc * 256 + x)]
    ring

theorem bytesToNat_cons (x : Nat) (xs : List Nat) :
    bytesToNat (x :: xs) = x * 256 ^ xs.length + bytesToNat xs := by
  show List.foldl _ (0 * 256 + x) xs = _
  rw [show 0 * 256 + x = x by ring, bytesToNat_foldl xs x]

theorem bytesToNat_lt_pow (l : List Nat) (h : ∀ d ∈ l, d < 256) :
    bytesToNat l < 256 ^ l.length := by
  induction l with
  | nil => simp [bytesToNat]
  | cons x xs ih =>
    have hx : x < 256 := h x (List.mem_cons_self x xs)
    have hxs : bytesToNat xs < 256 ^ xs.length :=
      ih fun d hd => h d (List.mem_cons_of_mem x hd)
    rw [bytesToNat_cons, List.length_cons]
    calc x * 256 ^ xs.length + bytesToNat xs
        < x * 256 ^ xs.length + 256 ^ xs.length := by omega
      _ = (x + 1) * 256 ^ xs.length := by ring
      _ ≤ 256 * 256 ^ xs.length := Nat.mul_le_mul_right _ (by omega)
      _ = 256 ^ (xs.length + 1) := by rw [pow_succ]; ring

/-- Lexicographic comparison of byte strings with shorter-prefix-first tie
breaking: the semantics of Node.js `Buffer.compare`, which `merkletreejs`
uses to sort sibling pairs. -/
def bufCompare : List Nat → List Nat → Ordering
  | [], [] => .eq
  | [], _ :: _ => .lt
  | _ :: _, [] => .gt
  | a :: as, b :: bs =>
    if a < b then .lt else if b < a then .gt else bufCompare as bs

theorem bufCompare_eq_iff : ∀ a b : List Nat, bufCompare a b = .eq ↔ a = b := by
  intro a
  induction a with
  | nil => intro b; cases b <;> simp [bufCompare]
  | cons x xs ih =>
    intro b
    cases b with
    | nil => simp [bufCompare]
    | cons y ys =>
      simp only [bufCompare]
      rcases Nat.lt_trichotomy x y with h | h | h
      · rw [if_pos h]
        exact iff_of_false (by simp) (by simp; intro hxy; omega)
      · subst h
        rw [if_neg (Nat.lt_irrefl x), if_neg (Nat.lt_irrefl x)]
        simp [ih ys]
      · rw [if_neg (by omega), if_pos h]
        exact iff_of_false (by simp) (by simp; intro hxy; omega)

theorem bufCompare_swap : ∀ a b : List Nat, bufCompare b a = (bufCompare a b).swap := by
  intro a
  induction a with
  | nil => intro b; cases b <;> rfl
  | cons x xs ih =>
    intro b
    cases b with
    | nil => rfl
    | cons y ys =>
      rcases Nat.lt_trichotomy x y with h | h | h
      · have h2 : ¬ y < x := by omega
        simp [bufCompare, h, h2, Ordering.swap]
      · subst h
        simp [bufCompare, Nat.lt_irrefl, ih ys]
      · have h2 : ¬ x < y := by omega
        simp [bufCompare, h, h2, Ordering.swap]

theorem bufCompare_gt_iff (a b : List Nat) :
    bufCompare a b = .gt ↔ bufCompare b a = .lt := by
  rw [bufCompare_swap b a]
  cases hba : bufCompare b a <;> simp [Ordering.swap]

/-- On equal-length strings of genuine bytes, lexicographic order is
numeric order of the big-endian values: the bridge between
`Buffer.compare` (builder side) and `bytes32` comparison as `uint256`
(contract side). -/
theorem bufCompare_lt_iff : ∀ a b : List Nat, a.length = b.length →
    (∀ d ∈ a, d < 256) → (∀ d ∈ b, d < 256) →
    (bufCompare a b = .lt ↔ bytesToNat a < bytesToNat b) := by
  intro a
  induction a with
  | nil =>
    intro b hlen _ _
    cases b with
    | nil => simp [bufCompare, bytesToNat]
    | cons y ys => simp at hlen
  | cons x xs ih =>
    intro b hlen ha hb
    cases b with
    | nil => simp at hlen
    | cons y ys =>
      have hlen' : xs.length = ys.length := by simpa using hlen
      have hx : x < 256 := ha x (List.mem_cons_self x xs)
      have hy : y < 256 := hb y (List.mem_cons_self y ys)
      have hxs : ∀ d ∈ xs, d < 256 := fun d hd => ha d (List.mem_cons_of_mem x hd)
      have hys : ∀ d ∈ ys, d < 256 := fun d hd => hb d (List.mem_cons_of_mem y hd)
      have hA : bytesToNat xs < 256 ^ xs.length := bytesToNat_lt_pow xs hxs
      have hB : bytesToNat ys < 256 ^ ys.length := bytesToNat_lt_pow ys hys
      rw [bytesToNat_cons, bytesToNat_cons, ← hlen']
      simp only [bufCompare]
      rcases Nat.lt_trichotomy x y with h | h | h
      · rw [if_pos h]
        refine iff_of_true rfl ?_
        calc x * 256 ^ xs.length + bytesToNat xs
            < x * 256 ^ xs.length + 256 ^ xs.length := by omega
          _ = (x + 1) * 256 ^ xs.length := by ring
          _ ≤ y * 256 ^ xs.length := Nat.mul_le_mul_right _ (by omega)
          _ ≤ y * 256 ^ xs.length + bytesToNat ys := Nat.le_add_right _ _
      · subst h
        rw [if_neg (Nat.lt_irrefl x), if_neg (Nat.lt_irrefl x)]
        rw [ih ys hlen' hxs hys]
        omega
      · rw [if_neg (by omega), if_pos h]
        refine iff_of_false (by simp) ?_
        have : y * 256 ^ xs.length + bytesToNat ys < x * 256 ^ xs.length + bytesToNat xs := by
          calc y * 256 ^ xs.length + bytesToNat ys
              < y * 256 ^ xs.length + 256 ^ xs.length := by rw [hlen']; omega
            _ = (y + 1) * 256 ^ xs.length := by ring
            _ ≤ x * 256 ^ xs.length := Nat.mul_le_mul_right _ (by omega)
            _ ≤ x * 256 ^ xs.length + bytesToNat xs := Nat.le_add_right _ _
        omega

/-- A well-formed 32-byte word: the shape of every `keccak256` output and
every `bytes32` value exchanged between the builder and the contract. -/
def ValidBytes32 (l : List Nat) : Prop :=
  l.length = 32 ∧ ∀ d ∈ l, d < 256

/-!
## The commitment builder: `merkletreejs` with `sortPairs: true`

`new MerkleTree(leaves, keccak256, { sortPairs: true })` stores the leaf
layer unchanged (`hashLeaves`/`sortLeaves`/`duplicateOdd` are off), then
repeatedly builds the next layer: adjacent nodes are paired positionally,
each pair is sorted with `Buffer.compare` before being concatenated and
hashed, and a trailing unpaired node of an odd layer is promoted as-is.
-/

/-- One sibling combination: `hashFn(Buffer.concat([left, right].sort(Buffer.compare)))`. -/
def mjsCombine (H : List Nat → List Nat) (a b : List Nat) : List Nat :=
  match bufCompare a b with
  | .gt => H (b ++ a)
  | _ => H (a ++ b)

theorem mjsCombine_comm (H : List Nat → List Nat) (a b : List Nat) :
    mjsCombine H a b = mjsCombine H b a := by
  rcases hab : bufCompare a b with hc | hc | hc
  · have hba : bufCompare b a = .gt := (bufCompare_gt_iff b a).mpr hab
    simp [mjsCombine, hab, hba]
  · have hone : a = b := (bufCompare_eq_iff a b).mp hab
    subst hone
    rfl
  · have hba : bufCompare b a = .lt := (bufCompare_gt_iff a b).mp hab
    simp [mjsCombine, hab, hba]

/-- The next tree layer: positional pairing, sorted-pair hashing, odd
trailing node promoted unchanged. -/
def nextLevel (H : List Nat → List Nat) : List (List Nat) → List (List Nat)
  | [] => []
  | [a] => [a]
  | a :: b :: rest => mjsCombine H a b :: nextLevel H rest

/-- Induction along the pairing structure used by every layer builder. -/
theorem pairsInd (P : List (List Nat) → Prop) (h0 : P []) (h1 : ∀ a, P [a])
    (h2 : ∀ a b r, P r → P (a :: b :: r)) : ∀ l, P l
  | [] => h0
  | [a] => h1 a
  | a :: b :: r => h2 a b r (pairsInd P h0 h1 h2 r)

theorem nextLevel_length (H : List Nat → List Nat) :
    ∀ ls : List (List Nat), (nextLevel H ls).length = (ls.length + 1) / 2 := by
  refine pairsInd _ ?_ ?_ ?_
  · rfl
  · intro a; simp [nextLevel]
  · intro a b r ih
    simp only [nextLevel, List.length_cons, ih]
    omega

theorem nextLevel_getD (H : List Nat → List Nat) :
    ∀ ls : List (List Nat), ∀ k : Nat, 2 * k < ls.length →
      (nextLevel H ls).getD k [] =
        if 2 * k + 1 < ls.length then
          mjsCombine H (ls.getD (2 * k) []) (ls.getD (2 * k + 1) [])
        else ls.getD (2 * k) [] := by
  refine pairsInd _ ?_ ?_ ?_
  · intro k hk; simp at hk
  · intro a k hk
    simp only [List.length_singleton] at hk
    have hk0 : k = 0 := by omega
    subst hk0
    simp [nextLevel]
  · intro a b r ih k hk
    cases k with
    | zero =>
      have h1 : 2 * 0 + 1 < (a :: b :: r).length := by
        simp only [List.length_cons]; omega
      simp [nextLevel, h1]
    | succ k =>
      have hk2 : 2 * k < r.length := by simp at hk; omega
      have hshift : 2 * (k + 1) = 2 * k + 1 + 1 := by omega
      have hshift1 : 2 * (k + 1) + 1 = 2 * k + 1 + 1 + 1 := by omega
      simp only [nextLevel, List.getD_cons_succ, hshift, hshift1, List.length_cons]
      rw [ih k hk2]
      have hiff : (2 * k + 1 < r.length) ↔ (2 * k + 1 + 1 + 1 < r.length + 1 + 1) := by omega
      by_cases hlt : 2 * k + 1 < r.length
      · rw [if_pos hlt, if_pos (by omega)]
      · rw [if_neg hlt, if_neg (by omega)]

theorem nextLevel_valid (H : List Nat → List Nat) (hH : ∀ x, ValidBytes32 (H x)) :
    ∀ ls : List (List Nat), (∀ l ∈ ls, ValidBytes32 l) →
      ∀ l ∈ nextLevel H ls, ValidBytes32 l := by
  refine pairsInd _ ?_ ?_ ?_
  · intro _ l hl; simp [nextLevel] at hl
  · intro a hls l hl
    simp only [nextLevel, List.mem_singleton] at hl
    subst hl
    exact hls l (List.mem_singleton_self l)
  · intro a b r ih hls l hl
    simp only [nextLevel, List.mem_cons] at hl
    rcases hl with h | h
    · subst h
      unfold mjsCombine
      cases bufCompare a b <;> exact hH _
    · exact ih (fun x hx => hls x (by simp [hx])) l h

/-- Fuelled layer construction; `fuel = leaves.length` always suffices
because each round at least halves a layer of two or more nodes. -/
def buildLayersAux (H : List Nat → List Nat) : Nat → List (List Nat) → List (List (List Nat))
  | 0, ls => [ls]
  | fuel + 1, ls => if ls.length ≤ 1 then [ls] else ls :: buildLayersAux H fuel (nextLevel H ls)

/-- The list of tree layers, leaf layer first: `merkletreejs`
`_createHashes` (`this.layers = [leaves]; while (nodes.length > 1) ...`). -/
def buildLayers (H : List Nat → List Nat) (ls : List (List Nat)) : List (List (List Nat)) :=
  buildLayersAux H ls.length ls

theorem buildLayersAux_irrel (H : List Nat → List Nat) :
    ∀ n m : Nat, ∀ ls : List (List Nat), ls.length ≤ n → ls.length ≤ m →
      buildLayersAux H n ls = buildLayersAux H m ls := by
  intro n
  induction n with
  | zero =>
    intro m ls hn _
    have hnil : ls = [] := List.length_eq_zero.mp (by omega)
    subst hnil
    cases m <;> simp [buildLayersAux]
  | succ n ih =>
    intro m ls hn hm
    cases m with
    | zero =>
      have hnil : ls = [] := List.length_eq_zero.mp (by omega)
      subst hnil
      simp [buildLayersAux]
    | succ m =>
      by_cases hsmall : ls.length ≤ 1
      · simp [buildLayersAux, hsmall]
      · have hlen2 : 2 ≤ ls.length := by omega
        have hnext : (nextLevel H ls).length = (ls.length + 1) / 2 := nextLevel_length H ls
        simp only [buildLayersAux, if_neg hsmall]
        rw [ih m (nextLevel H ls) (by omega) (by omega)]

theorem buildLayers_small (H : List Nat → List Nat) (ls : List (List Nat))
    (h : ls.length ≤ 1) : buildLayers H ls = [ls] := by
  unfold buildLayers
  interval_cases h2 : ls.length <;> simp_all [buildLayersAux]

theorem buildLayers_step (H : List Nat → List Nat) (ls : List (List Nat))
    (h : 2 ≤ ls.length) : buildLayers H ls = ls :: buildLayers H (nextLevel H ls) := by
  unfold buildLayers
  obtain ⟨m, hm⟩ : ∃ m, ls.length = m + 1 := ⟨ls.length - 1, by omega⟩
  rw [hm]
  simp only [buildLayersAux, if_neg (by omega : ¬ ls.length ≤ 1)]
  have hnext : (nextLevel H ls).length = (ls.length + 1) / 2 := nextLevel_length H ls
  rw [buildLayersAux_irrel H m (nextLevel H ls).length (nextLevel H ls) (by omega) (le_refl _)]

theorem buildLayers_ne_nil (H : List Nat → List Nat) (ls : List (List Nat)) :
    buildLayers H ls ≠ [] := by
  unfold buildLayers
  cases h : ls.length with
  | zero => simp [buildLayersAux]
  | succ n => by_cases h1 : ls.length ≤ 1 <;> simp [buildLayersAux, h1]

/-- `merkletreejs` `getRoot`: the single node of the last layer, or the
empty buffer when there is none. -/
def getRoot (H : List Nat → List Nat) (ls : List (List Nat)) : List Nat :=
  ((buildLayers H ls).getLastD []).getD 0 []

theorem getRoot_nil (H : List Nat → List Nat) : getRoot H [] = [] := rfl

theorem getRoot_single (H : List Nat → List Nat) (a : List Nat) : getRoot H [a] = a := rfl

theorem getRoot_step (H : List Nat → List Nat) (ls : List (List Nat))
    (h : 2 ≤ ls.length) : getRoot H ls = getRoot H (nextLevel H ls) := by
  unfold getRoot
  rw [buildLayers_step H ls h]
  rcases hb : buildLayers H (nextLevel H ls) with _ | ⟨x, xs⟩
  · exact absurd hb (buildLayers_ne_nil H (nextLevel H ls))
  · simp [List.getLastD_cons]

/-- `merkletreejs` `getProof` layer walk: at every layer the pair index is
`index - 1` for a right node and `index + 1` for a left node; the sibling
is collected when it exists, and the index is halved for the next layer.
(`getHexProof` then serialises only the sibling data, since sorted-pair
verification needs no left/right positions.) -/
def getProofFromLayers : List (List (List Nat)) → Nat → List (List Nat)
  | [], _ => []
  | layer :: rest, i =>
    (if (if i % 2 = 1 then i - 1 else i + 1) < layer.length then
       [layer.getD (if i % 2 = 1 then i - 1 else i + 1) []]
     else []) ++ getProofFromLayers rest (i / 2)

/-- Leaf lookup in `merkletreejs` `getProof`: a scan of the whole leaf
layer that keeps overwriting the found index, hence the LAST occurrence;
`none` mirrors the `-1` sentinel. -/
def leafIndex (leaf : List Nat) : List (List Nat) → Option Nat
  | [] => none
  | x :: xs =>
    match leafIndex leaf xs with
    | some j => some (j + 1)
    | none => if x = leaf then some 0 else none

theorem leafIndex_spec (leaf : List Nat) :
    ∀ ls : List (List Nat), ∀ i : Nat, leafIndex leaf ls = some i →
      i < ls.length ∧ ls.getD i [] = leaf := by
  intro ls
  induction ls with
  | nil => intro i h; simp [leafIndex] at h
  | cons x xs ih =>
    intro i h
    simp only [leafIndex] at h
    rcases hrec : leafIndex leaf xs with _ | j
    · rw [hrec] at h
      by_cases hx : x = leaf
      · rw [if_pos hx] at h
        cases h
        simpa using hx
      · rw [if_neg hx] at h
        cases h
    · rw [hrec] at h
      cases h
      obtain ⟨hlt, hget⟩ := ih j hrec
      exact ⟨by simp; omega, by simpa using hget⟩

theorem leafIndex_isSome (leaf : List Nat) :
    ∀ ls : List (List Nat), leaf ∈ ls → (leafIndex leaf ls).isSome := by
  intro ls
  induction ls with
  | nil => intro h; simp at h
  | cons x xs ih =>
    intro h
    simp only [leafIndex]
    rcases hrec : leafIndex leaf xs with _ | j
    · rcases List.mem_cons.mp h with hx | hx
      · simp [hx.symm]
      · have := ih hx
        rw [hrec] at this
        simp at this
    · simp

/-- `merkle.getProof(leaf)`: locate the leaf, then walk the layers; an
absent leaf yields the empty proof. -/
def getProofForLeaf (H : List Nat → List Nat) (ls : List (List Nat)) (leaf : List Nat) :
    List (List Nat) :=
  match leafIndex leaf ls with
  | none => []
  | some i => getProofFromLayers (buildLayers H ls) i

/-!
## Leaf encoding, off-chain and on-chain

Off-chain (`merkle.ts` `generateLeaf`):
`keccak256(utils.solidityKeccak256(["address", "uint256"], [address, value]))`
packs the 20 address bytes followed by the 32 big-endian amount bytes.
On-chain (`Refund.sol` line 72): `keccak256(abi.encodePacked(msg.sender, _amount))`.
Addresses and amounts are modelled by their numeric values.
-/

/-- The Solidity elementary types used by the builder's
`solidityKeccak256` call. -/
inductive SolType where
  | address : SolType
  | uint256 : SolType

/-- Tight packing of one typed value (`ethers` `solidityPack` element):
an `address` contributes 20 bytes, a `uint256` 32 bytes, big-endian. -/
def solidityPackOne : SolType → Nat → List Nat
  | .address, v => natToBytes 20 v
  | .uint256, v => natToBytes 32 v

/-- `ethers` `utils.solidityPack`: concatenation of the packed values. -/
def solidityPack (tys : List SolType) (vs : List Nat) : List Nat :=
  (List.zipWith solidityPackOne tys vs).flatten

/-- Off-chain leaf: `generateLeaf(address, value)` from `scripts/merkle.ts`. -/
def generateLeaf (H : List Nat → List Nat) (addr value : Nat) : List Nat :=
  H (solidityPack [.address, .uint256] [addr, value])

/-- On-chain packing `abi.encodePacked(msg.sender, _amount)`. -/
def encodePackedAddrUint (addr amount : Nat) : List Nat :=
  natToBytes 20 addr ++ natToBytes 32 amount

/-- On-chain leaf recomputation:
`bytes32 node = keccak256(abi.encodePacked(msg.sender, _amount))`. -/
def claimNode (H : List Nat → List Nat) (sender amount : Nat) : List Nat :=
  H (encodePackedAddrUint sender amount)

/-- The leaves handed to `new MerkleTree` by `getMerkle`, one per investor
entry, in table order (amounts already scaled to the smallest unit). -/
def getMerkleLeaves (H : List Nat → List Nat) (investors : List (Nat × Nat)) :
    List (List Nat) :=
  investors.map fun p => generateLeaf H p.1 p.2

/-!
## The on-chain verifier: OpenZeppelin `MerkleProof`

`processProof` folds the proof over the leaf, hashing each pair in
numeric `bytes32` order (`a < b ? keccak(a ‖ b) : keccak(b ‖ a)`);
`verify` compares the result with the root.
-/

/-- OpenZeppelin `_hashPair`: commutative sorted-pair hashing, comparing
the words as `uint256` values. -/
def ozHashPair (H : List Nat → List Nat) (a b : List Nat) : List Nat :=
  if bytesToNat a < bytesToNat b then H (a ++ b) else H (b ++ a)

/-- OpenZeppelin `processProof`. -/
def processProof (H : List Nat → List Nat) (proof : List (List Nat)) (leaf : List Nat) :
    List Nat :=
  proof.foldl (fun acc p => ozHashPair H acc p) leaf

/-- OpenZeppelin `MerkleProof.verify`. -/
def verify (H : List Nat → List Nat) (proof : List (List Nat)) (root leaf : List Nat) :
    Bool :=
  processProof H proof leaf == root

/-- On well-formed words the contract's numeric sorted-pair hash and the
builder's `Buffer.compare` sorted-pair hash coincide. -/
theorem ozHashPair_eq_mjsCombine (H : List Nat → List Nat) (a b : List Nat)
    (ha : ValidBytes32 a) (hb : ValidBytes32 b) :
    ozHashPair H a b = mjsCombine H a b := by
  have hlen : a.length = b.length := by rw [ha.1, hb.1]
  rcases hab : bufCompare a b with hc | hc | hc
  · have hlt : bytesToNat a < bytesToNat b :=
      (bufCompare_lt_iff a b hlen ha.2 hb.2).mp hab
    simp [ozHashPair, mjsCombine, hab, hlt]
  · have heq : a = b := (bufCompare_eq_iff a b).mp hab
    subst heq
    simp [ozHashPair, mjsCombine, hab]
  · have hba : bufCompare b a = .lt := (bufCompare_gt_iff a b).mp hab
    have hlt : bytesToNat b < bytesToNat a :=
      (bufCompare_lt_iff b a hlen.symm hb.2 ha.2).mp hba
    simp [ozHashPair, mjsCombine, hab, if_neg (by omega : ¬ bytesToNat a < bytesToNat b)]

theorem getD_mem (ls : List (List Nat)) (i : Nat) (h : i < ls.length) :
    ls.getD i [] ∈ ls := by
  induction ls generalizing i with
  | nil => simp at h
  | cons x xs ih =>
    cases i with
    | zero => simp
    | succ i =>
      have : i < xs.length := by simpa using h
      simp only [List.getD_cons_succ, List.mem_cons]
      exact Or.inr (ih i this)

/-- One layer descent of the proof walk rebuilds exactly the parent node:
the collected sibling (or the promoted node itself, when the layer is odd
and the index is last) hashes to position `i / 2` of the next layer. -/
theorem stepValue (H : List Nat → List Nat) (hH : ∀ x, ValidBytes32 (H x))
    (ls : List (List Nat)) (hls : ∀ l ∈ ls, ValidBytes32 l) (i : Nat)
    (h2 : 2 ≤ ls.length) (hi : i < ls.length) :
    processProof H
      (if (if i % 2 = 1 then i - 1 else i + 1) < ls.length then
        [ls.getD (if i % 2 = 1 then i - 1 else i + 1) []]
      else []) (ls.getD i []) = (nextLevel H ls).getD (i / 2) [] := by
  by_cases hodd : i % 2 = 1
  · have hp : i - 1 < ls.length := by omega
    rw [if_pos hodd, if_pos hp]
    have hk : 2 * (i / 2) = i - 1 := by omega
    have hk1 : 2 * (i / 2) + 1 = i := by omega
    rw [nextLevel_getD H ls (i / 2) (by omega), if_pos (by omega : 2 * (i / 2) + 1 < ls.length)]
    rw [hk1, hk]
    show processProof H [ls.getD (i - 1) []] (ls.getD i []) = _
    simp only [processProof, List.foldl_cons, List.foldl_nil]
    rw [ozHashPair_eq_mjsCombine H _ _ (hls _ (getD_mem ls i hi)) (hls _ (getD_mem ls (i - 1) hp))]
    exact mjsCombine_comm H _ _
  · rw [if_neg hodd]
    have hk : 2 * (i / 2) = i := by omega
    by_cases hp : i + 1 < ls.length
    · rw [if_pos hp]
      rw [nextLevel_getD H ls (i / 2) (by omega), if_pos (by omega : 2 * (i / 2) + 1 < ls.length)]
      rw [show 2 * (i / 2) + 1 = i + 1 by omega, hk]
      simp only [processProof, List.foldl_cons, List.foldl_nil]
      exact ozHashPair_eq_mjsCombine H _ _ (hls _ (getD_mem ls i hi)) (hls _ (getD_mem ls (i + 1) hp))
    · rw [if_neg hp]
      rw [nextLevel_getD H ls (i / 2) (by omega), if_neg (by omega : ¬ 2 * (i / 2) + 1 < ls.length)]
      rw [hk]
      rfl

/-- The proof walked off the layer stack folds back to the stored root,
for every position of the leaf layer. -/
theorem processProof_roundtrip (H : List Nat → List Nat) (hH : ∀ x, ValidBytes32 (H x)) :
    ∀ n : Nat, ∀ ls : List (List Nat), ls.length ≤ n → (∀ l ∈ ls, ValidBytes32 l) →
      ∀ i, i < ls.length →
        processProof H (getProofFromLayers (buildLayers H ls) i) (ls.getD i []) =
          getRoot H ls := by
  intro n
  induction n with
  | zero => intro ls hn _ i hi; omega
  | succ n ih =>
    intro ls hn hls i hi
    by_cases hsmall : ls.length ≤ 1
    · have hlen1 : ls.length = 1 := by omega
      obtain ⟨a, ha⟩ := List.length_eq_one.mp hlen1
      subst ha
      have hi0 : i = 0 := by simpa using hi
      subst hi0
      rw [buildLayers_small H [a] (by simp)]
      simp [getProofFromLayers, processProof, getRoot_single]
    · have h2 : 2 ≤ ls.length := by omega
      have hnl : (nextLevel H ls).length = (ls.length + 1) / 2 := nextLevel_length H ls
      rw [buildLayers_step H ls h2]
      simp only [getProofFromLayers]
      show processProof H (_ ++ _) _ = _
      unfold processProof
      rw [List.foldl_append]
      have hstep := stepValue H hH ls hls i h2 hi
      unfold processProof at hstep
      rw [hstep]
      rw [getRoot_step H ls h2]
      exact ih (nextLevel H ls) (by omega) (nextLevel_valid H hH ls hls) (i / 2) (by omega)

/-- Round trip for every committed leaf: the builder's proof for a leaf
present in the leaf layer verifies against the builder's root under the
contract's verifier. -/
theorem verify_of_mem (H : List Nat → List Nat) (hH : ∀ x, ValidBytes32 (H x))
    (ls : List (List Nat)) (hls : ∀ l ∈ ls, ValidBytes32 l) (leaf : List Nat)
    (hmem : leaf ∈ ls) :
    verify H (getProofForLeaf H ls leaf) (getRoot H ls) leaf = true := by
  obtain ⟨i, hidx⟩ := Option.isSome_iff_exists.mp (leafIndex_isSome leaf ls hmem)
  obtain ⟨hlt, hget⟩ := leafIndex_spec leaf ls i hidx
  unfold verify getProofForLeaf
  rw [hidx]
  simp only [beq_iff_eq]
  rw [← hget]
  exact processProof_roundtrip H hH ls.length ls (le_refl _) hls i hlt

/-!
## Decimal-to-fixed-point conversion: ethers v5 `parseUnits`

`utils.parseUnits(value, decimals)` is `parseFixed`: the input must match
`/^-?[0-9.]*$/`, a lone `.` and more than one `.` are rejected, the
fractional part is trimmed of TRAILING zeros and must then fit within
`decimals` digits — otherwise the call throws "fractional component
exceeds decimals"; the surviving fraction is right-padded with zeros and
added to the scaled whole part.
-/

inductive ParseErr where
  | invalidDecimalValue
  | missingValue
  | tooManyDecimalPoints
  | fractionExceedsDecimals
deriving DecidableEq

/-- Characters admitted by the `/^-?[0-9.]*$/` body. -/
def isDigitOrDot (c : Char) : Bool := c.isDigit || c == '.'

/-- The whole regex: an optional leading minus, then digits and dots. -/
def decRegexMatch (cs : List Char) : Bool :=
  if cs.headD ' ' = '-' then cs.tail.all isDigitOrDot else cs.all isDigitOrDot

/-- JavaScript `value.split(".")`. -/
def splitDot : List Char → List (List Char)
  | [] => [[]]
  | c :: cs =>
    if c = '.' then [] :: splitDot cs
    else
      match splitDot cs with
      | [] => [[c]]
      | p :: ps => (c :: p) :: ps

/-- The `while (fraction[fraction.length - 1] === "0")` trimming loop. -/
def trimTrailingZeros (cs : List Char) : List Char :=
  (cs.reverse.dropWhile (fun c => c == '0')).reverse

/-- `BigNumber.from` on a plain digit string. -/
def digitsToNat (cs : List Char) : Nat :=
  cs.foldl (fun n c => n * 10 + (c.toNat - Char.toNat '0')) 0

/-- The body of `parseFixed` after sign stripping (`value` holds no `-`). -/
def parseFixedPos (v : List Char) (decimals : Nat) : Except ParseErr Nat :=
  if v = ['.'] then .error .missingValue
  else
    let comps := splitDot v
    if 2 < comps.length then .error .tooManyDecimalPoints
    else
      let whole0 := comps.getD 0 []
      let whole := if whole0 = [] then ['0'] else whole0
      let fraction0 := comps.getD 1 []
      let fraction1 := if fraction0 = [] then ['0'] else fraction0
      let fraction2 := trimTrailingZeros fraction1
      if decimals < fraction2.length then .error .fractionExceedsDecimals
      else
        let fraction3 := if fraction2 = [] then ['0'] else fraction2
        let fraction := fraction3 ++ List.replicate (decimals - fraction3.length) '0'
        .ok (digitsToNat whole * 10 ^ decimals + digitsToNat fraction)

/-- ethers v5 `parseFixed(value, decimals)` (hence `parseUnits`):
regex check, sign stripping (`value.substring(0, 1) === "-"`), then the
positive body, negating at the end for a negative sign. -/
def parseFixed (value : List Char) (decimals : Nat) : Except ParseErr Int :=
  if decRegexMatch value then
    if value.headD ' ' = '-' then
      match parseFixedPos value.tail decimals with
      | .ok n => .ok (-(n : Int))
      | .error e => .error e
    else
      match parseFixedPos value decimals with
      | .ok n => .ok ((n : Int))
      | .error e => .error e
  else .error .invalidDecimalValue

theorem splitDot_cons (c : Char) (cs : List Char) :
    splitDot (c :: cs) =
      if c = '.' then [] :: splitDot cs
      else
        match splitDot cs with
        | [] => [[c]]
        | p :: ps => (c :: p) :: ps := rfl

theorem splitDot_no_dot (cs : List Char) (h : ∀ c ∈ cs, c ≠ '.') :
    splitDot cs = [cs] := by
  induction cs with
  | nil => rfl
  | cons c cs ih =>
    have hc : c ≠ '.' := h c (List.mem_cons_self c cs)
    have hrest : splitDot cs = [cs] := ih fun x hx => h x (List.mem_cons_of_mem c hx)
    simp [splitDot, hc, hrest]

theorem splitDot_append (w rest : List Char) (h : ∀ c ∈ w, c ≠ '.') :
    splitDot (w ++ '.' :: rest) = w :: splitDot rest := by
  induction w with
  | nil => simp [splitDot]
  | cons c w ih =>
    have hc : c ≠ '.' := h c (List.mem_cons_self c w)
    have hrec : splitDot (w ++ '.' :: rest) = w :: splitDot rest :=
      ih fun x hx => h x (List.mem_cons_of_mem c hx)
    show splitDot (c :: (w ++ '.' :: rest)) = (c :: w) :: splitDot rest
    rw [splitDot_cons, if_neg hc, hrec]

/-!
## The on-chain state machine: `Refund.sol`

State: the immutable `merkleRoot` and `refundDeadline`, the `Ownable`
owner, the `claimed` mapping, the contract's native balance, and the
`ReentrancyGuard` status flag.  Each external call is a function of the
pre-state plus the ledger environment (`msg.sender`, `block.timestamp`)
and an `accepts` flag standing for whether the recipient's fallback
accepts the low-level `call{value: amount}("")`.  A Solidity `require`
failure reverts the whole transaction, so a failing run returns
`Except.error` and the persistent state is the UNCHANGED pre-state
(`txResult`); the one state visible mid-transaction is the state passed
to the external call, exposed as `afterClaimMark`.
-/

inductive RefundError where
  | reentrantCall
  | refundPeriodOver
  | alreadyClaimed
  | invalidProof
  | transferFailed
  | notOwner
  | refundPeriodNotOver
  | insufficientFunds
deriving DecidableEq

structure ContractState where
  merkleRoot : List Nat
  refundDeadline : Nat
  owner : Nat
  claimed : Nat → Bool
  balance : Nat
  entered : Bool

/-- The EVM low-level `call{value: amount}("")`: fails outright when the
contract balance cannot cover the value, otherwise succeeds exactly when
the recipient accepts; a successful call moves the value out. -/
def callValue (st : ContractState) (amount : Nat) (accepts : Bool) :
    Bool × ContractState :=
  if st.balance < amount then (false, st)
  else if accepts then (true, { st with balance := st.balance - amount })
  else (false, st)

/-- The state at the moment `claimRefund` performs its external transfer:
the reentrancy guard is set (`_status = _ENTERED`) and the caller's claim
record has just been written (`claimed[msg.sender] = true`, source line
76, BEFORE the transfer on line 79). -/
def afterClaimMark (st : ContractState) (sender : Nat) : ContractState :=
  { st with
    entered := true
    claimed := fun a => if a = sender then true else st.claimed a }

/-- `claimRefund(bytes32[] _proof, uint256 _amount)` under `nonReentrant`:
guard check, `require(block.timestamp <= refundDeadline)`,
`require(!claimed[msg.sender])`, Merkle proof verification, claim-flag
write, then the value transfer with `require(success)`; on a normal exit
the guard flag is restored. -/
def claimRefund (H : List Nat → List Nat) (st : ContractState) (sender now : Nat)
    (proof : List (List Nat)) (amount : Nat) (accepts : Bool) :
    Except RefundError ContractState :=
  if st.entered then .error .reentrantCall
  else if st.refundDeadline < now then .error .refundPeriodOver
  else if st.claimed sender then .error .alreadyClaimed
  else if verify H proof st.merkleRoot (claimNode H sender amount) = false then
    .error .invalidProof
  else
    let tr := callValue (afterClaimMark st sender) amount accepts
    if tr.1 = false then .error .transferFailed
    else .ok { tr.2 with entered := false }

/-- `withdraw(uint256 _amount)`: `onlyOwner`, then
`require(block.timestamp > refundDeadline)`,
`require(address(this).balance >= _amount)`, then the transfer to the
caller (the owner). -/
def withdraw (st : ContractState) (sender now amount : Nat) (accepts : Bool) :
    Except RefundError ContractState :=
  if sender ≠ st.owner then .error .notOwner
  else if ¬ st.refundDeadline < now then .error .refundPeriodNotOver
  else if st.balance < amount then .error .insufficientFunds
  else
    let tr := callValue st amount accepts
    if tr.1 = false then .error .transferFailed
    else .ok tr.2

/-- Persistent state after a transaction: a revert (`Except.error`)
restores the pre-state in full. -/
def txResult (st : ContractState) (r : Except RefundError ContractState) :
    ContractState :=
  match r with
  | .ok s => s
  | .error _ => st

/-- A concrete stand-in hash used to instantiate the abstract `H` in
witnesses and counterexamples: an LCG fold of the input bytes, padded to
a well-formed 32-byte word. -/
def testHash (xs : List Nat) : List Nat :=
  natToBytes 32 (xs.foldl (fun a b => a * 1664525 + b + 1013904223) 1)

theorem testHash_valid : ∀ x : List Nat, ValidBytes32 (testHash x) :=
  fun x => ⟨natToBytes_length 32 _, natToBytes_bytes_lt 32 _⟩

/-- A deployed-contract state committed to the single investor
`(address 5, amount 7)` (single-leaf tree: root = leaf), deadline 100,
owner 1, balance 10 wei, nothing claimed. -/
def exState : ContractState where
  merkleRoot := claimNode testHash 5 7
  refundDeadline := 100
  owner := 1
  claimed := fun _ => false
  balance := 10
  entered := false

/-- `exState` with a balance too small to cover the committed amount 7. -/
def exStateLow : ContractState := { exState with balance := 3 }

theorem parseFixedPos_excess (w f : List Char) (d : Nat)
    (hwnd : ∀ c ∈ w, c ≠ '.') (hfnd : ∀ c ∈ f, c ≠ '.') (hfne : f ≠ [])
    (hd : d < (trimTrailingZeros f).length) :
    parseFixedPos (w ++ '.' :: f) d = .error .fractionExceedsDecimals := by
  have hsplit : splitDot (w ++ '.' :: f) = [w, f] := by
    rw [splitDot_append w f hwnd, splitDot_no_dot f hfnd]
  have hne : w ++ '.' :: f ≠ ['.'] := by
    intro he
    apply hfne
    have hlen := congrArg List.length he
    rw [List.length_append, List.length_cons, List.length_cons, List.length_nil] at hlen
    exact List.length_eq_zero.mp (by omega)
  unfold parseFixedPos
  rw [if_neg hne]
  simp only [hsplit, List.length_cons, List.length_nil, List.getD_cons_zero,
    List.getD_cons_succ]
  rw [if_neg (by omega : ¬ 2 < 0 + 1 + 1)]
  rw [if_neg hfne]
  rw [if_pos hd]

/-- Claim C6 counterexample: at scale 0, the well-formed decimal string
"1.5" has one excess fractional digit; the conversion does NOT truncate it
to 1 — it rejects the input with the underflow error ("fractional
component exceeds decimals" in ethers v5 `parseFixed`). -/
theorem parseFixed_truncates_cex :
    parseFixed ['1', '.', '5'] 0 = .error .fractionExceedsDecimals ∧
    ∀ n : Int, parseFixed ['1', '.', '5'] 0 ≠ .ok n := by
  refine ⟨rfl, fun n h => ?_⟩
  rw [show parseFixed ['1', '.', '5'] 0 = Except.error ParseErr.fractionExceedsDecimals
    from rfl] at h
  exact Except.noConfusion h

/-- Claim C6 (amended): the conversion fails on malformed input
(`/^-?[0-9.]*$/` violation), and on well-formed input whose fractional
part — after trimming trailing zeros — has more digits than the scale it
ALSO fails (underflow rejection); it never truncates excess fractional
digits. -/
theorem parseFixed_rejects_excess_fraction (cs w f : List Char) (d e : Nat)
    (hcs : decRegexMatch cs = false)
    (hw : w.all Char.isDigit = true) (hf : f.all Char.isDigit = true)
    (he : e < (trimTrailingZeros f).length) :
    parseFixed cs d = .error .invalidDecimalValue ∧
    parseFixed (w ++ '.' :: f) e = .error .fractionExceedsDecimals := by
  constructor
  · simp [parseFixed, hcs]
  · have hwd : ∀ c ∈ w, c.isDigit = true := List.all_eq_true.mp hw
    have hfd : ∀ c ∈ f, c.isDigit = true := List.all_eq_true.mp hf
    have hwnd : ∀ c ∈ w, c ≠ '.' := fun c hc hc2 => by
      have := hwd c hc
      rw [hc2] at this
      exact absurd this (by decide)
    have hfnd : ∀ c ∈ f, c ≠ '.' := fun c hc hc2 => by
      have := hfd c hc
      rw [hc2] at this
      exact absurd this (by decide)
    have hfne : f ≠ [] := by
      intro hnil
      rw [hnil] at he
      simp [trimTrailingZeros] at he
    have hall : ∀ x ∈ w ++ '.' :: f, isDigitOrDot x = true := by
      intro x hx
      rcases List.mem_append.mp hx with h | h
      · simp [isDigitOrDot, hwd x h]
      · rcases List.mem_cons.mp h with h | h
        · subst h; decide
        · simp [isDigitOrDot, hfd x h]
    have hbody := parseFixedPos_excess w f e hwnd hfnd hfne he
    have hhead : (w ++ '.' :: f).headD ' ' ≠ '-' := by
      cases w with
      | nil => simp only [List.nil_append, List.headD_cons]; decide
      | cons c w2 =>
        simp only [List.cons_append, List.headD_cons]
        intro hc2
        have := hwd c (List.mem_cons_self c w2)
        rw [hc2] at this
        exact absurd this (by decide)
    have hreg : decRegexMatch (w ++ '.' :: f) = true := by
      unfold decRegexMatch
      rw [if_neg hhead]
      exact List.all_eq_true.mpr hall
    unfold parseFixed
    rw [if_pos hreg, if_neg hhead, hbody]

/-- Claim C6 witness: a malformed string is rejected, and "1.5" at scale 0
is rejected for excess fractional digits. -/
theorem parseFixed_rejects_excess_fraction_inst :
    parseFixed ['x'] 0 = .error .invalidDecimalValue ∧
    parseFixed ['1', '.', '5'] 0 = .error .fractionExceedsDecimals :=
  parseFixed_rejects_excess_fraction ['x'] ['1'] ['5'] 0 0 (by decide) (by decide)
    (by decide) (by decide)

/-- Claim C7 counterexample: building from the empty investor table does
not fail — `merkletreejs` happily returns a degenerate tree (a single
empty layer) and `getRoot` returns the empty buffer, not an
`EmptyCommitmentSet` error (the embedded builder is total and no error
channel exists in the source). -/
theorem getMerkle_empty_cex :
    buildLayers testHash (getMerkleLeaves testHash []) = [[]] ∧
    getRoot testHash (getMerkleLeaves testHash []) = [] :=
  ⟨rfl, rfl⟩

/-- Claim C7 (amended): building the tree from an empty set of leaves is
NOT an error: for every hash, the builder returns a degenerate tree with
one empty layer whose root is the empty byte string. -/
theorem getMerkle_empty_total (H : List Nat → List Nat) :
    buildLayers H (getMerkleLeaves H []) = [[]] ∧
    getRoot H (getMerkleLeaves H []) = [] :=
  ⟨rfl, rfl⟩

/-- Claim C8: the off-chain `generateLeaf` and the on-chain
`keccak256(abi.encodePacked(msg.sender, _amount))` agree bit for bit: both
hash the 20 address bytes followed by the 32-byte big-endian amount, in
the fixed (address, amount) order. -/
theorem leaf_encoding_agreement (H : List Nat → List Nat) (addr amt : Nat) :
    generateLeaf H addr amt = claimNode H addr amt ∧
    generateLeaf H addr amt = H (natToBytes 20 addr ++ natToBytes 32 amt) := by
  constructor <;>
    simp [generateLeaf, claimNode, solidityPack, solidityPackOne, encodePackedAddrUint]

set_option maxRecDepth 8000

/-- Claim C2 counterexample: `sortPairs` sorts within each sibling pair
but pairing itself is positional, so permuting the leaf sequence changes
the pairing and hence the root: a four-entry table and the same table
with the middle entries swapped produce provably different roots (the
leaf multisets are verified to be permutations of each other). -/
theorem root_not_order_invariant_cex :
    (getMerkleLeaves testHash [(1, 1), (3, 3), (2, 2), (4, 4)]).Perm
      (getMerkleLeaves testHash [(1, 1), (2, 2), (3, 3), (4, 4)]) ∧
    getRoot testHash (getMerkleLeaves testHash [(1, 1), (3, 3), (2, 2), (4, 4)]) ≠
      getRoot testHash (getMerkleLeaves testHash [(1, 1), (2, 2), (3, 3), (4, 4)]) := by
  constructor
  · decide
  · decide

/-- Claim C2 (amended): the root is NOT invariant under arbitrary
permutations of the leaf sequence; the value-sort applies within a
sibling pair only, so the root is invariant exactly under swaps inside a
pair — in particular swapping the two leading leaves, and hence any
two-entry table in either order. -/
theorem root_invariant_pair_swap (H : List Nat → List Nat) (a b : List Nat)
    (rest : List (List Nat)) (p q : Nat × Nat) :
    getRoot H (a :: b :: rest) = getRoot H (b :: a :: rest) ∧
    getRoot H (getMerkleLeaves H [p, q]) = getRoot H (getMerkleLeaves H [q, p]) := by
  have swap : ∀ (x y : List Nat) (r : List (List Nat)),
      getRoot H (x :: y :: r) = getRoot H (y :: x :: r) := by
    intro x y r
    rw [getRoot_step H (x :: y :: r) (by simp only [List.length_cons]; omega),
      getRoot_step H (y :: x :: r) (by simp only [List.length_cons]; omega)]
    show getRoot H (mjsCombine H x y :: nextLevel H r) =
      getRoot H (mjsCombine H y x :: nextLevel H r)
    rw [mjsCombine_comm]
  exact ⟨swap a b rest, swap _ _ []⟩

/-- Claim C3: round trip — for every (address, amount) pair of the
committed table, the proof extracted from the tree for that pair's leaf
verifies against the tree's root and the recomputed leaf under the
contract's sorted-pair verifier. -/
theorem merkle_roundtrip (H : List Nat → List Nat) (hH : ∀ x, ValidBytes32 (H x))
    (investors : List (Nat × Nat)) (addr amt : Nat)
    (hmem : (addr, amt) ∈ investors) :
    verify H
      (getProofForLeaf H (getMerkleLeaves H investors) (generateLeaf H addr amt))
      (getRoot H (getMerkleLeaves H investors))
      (generateLeaf H addr amt) = true := by
  apply verify_of_mem H hH
  · intro l hl
    simp only [getMerkleLeaves, List.mem_map] at hl
    obtain ⟨p, _, hpe⟩ := hl
    rw [← hpe]
    exact hH _
  · exact List.mem_map.mpr ⟨(addr, amt), hmem, rfl⟩

/-- Claim C3 witness: the round trip at a concrete two-investor table. -/
theorem merkle_roundtrip_inst :
    verify testHash
      (getProofForLeaf testHash (getMerkleLeaves testHash [(5, 7), (9, 11)])
        (generateLeaf testHash 5 7))
      (getRoot testHash (getMerkleLeaves testHash [(5, 7), (9, 11)]))
      (generateLeaf testHash 5 7) = true :=
  merkle_roundtrip testHash testHash_valid [(5, 7), (9, 11)] 5 7 (by decide)

/-- The persistent state after a successful `claimRefund`: claim flag set,
the claimed amount paid out, guard released. -/
def claimedState (st : ContractState) (sender amount : Nat) : ContractState :=
  { st with
    claimed := fun a => if a = sender then true else st.claimed a
    balance := st.balance - amount
    entered := false }

/-- Claim C1 counterexample: when the transfer fails, `require(success)`
reverts the WHOLE transaction, claim-flag write included — the persistent
state keeps `claimed[caller] = false`, contradicting the claimed
"claimed[caller] = true with no rollback" exception. -/
theorem transfer_failure_rollback_cex :
    claimRefund testHash exState 5 50 [] 7 false = .error .transferFailed ∧
    (txResult exState (claimRefund testHash exState 5 50 [] 7 false)).claimed 5 = false :=
  ⟨rfl, rfl⟩

/-- Claim C1 (amended): a transfer failure makes `claimRefund` fail with
`TransferFailed`, and — like every other failure — the entire operation
is rolled back: the caller's claim record is NOT left true but reverts to
false; the all-or-nothing failure semantics admits no exception. -/
theorem transfer_failure_reverts_claim (H : List Nat → List Nat) (st : ContractState)
    (sender now : Nat) (proof : List (List Nat)) (amount : Nat)
    (hg : st.entered = false) (ht : now ≤ st.refundDeadline)
    (hc : st.claimed sender = false)
    (hv : verify H proof st.merkleRoot (claimNode H sender amount) = true) :
    claimRefund H st sender now proof amount false = .error .transferFailed ∧
    (txResult st (claimRefund H st sender now proof amount false)).claimed sender
      = false := by
  have hlt : ¬ st.refundDeadline < now := by omega
  have hrun : claimRefund H st sender now proof amount false = .error .transferFailed := by
    unfold claimRefund
    rw [if_neg (by simp [hg]), if_neg hlt, if_neg (by simp [hc]), if_neg (by simp [hv])]
    by_cases hbal : (afterClaimMark st sender).balance < amount
    · simp [callValue, hbal]
    · simp [callValue, hbal]
  rw [hrun]
  exact ⟨rfl, hc⟩

/-- Claim C1 witness: the amended rollback fact at a concrete state. -/
theorem transfer_failure_reverts_claim_inst :
    claimRefund testHash exState 5 60 [] 7 false = .error .transferFailed ∧
    (txResult exState (claimRefund testHash exState 5 60 [] 7 false)).claimed 5
      = false :=
  transfer_failure_reverts_claim testHash exState 5 60 [] 7 rfl (by decide) rfl (by decide)

/-- Claim C4: claim lifecycle — with a valid proof before the deadline a
fresh caller's claim succeeds and flags the record; the identical second
call fails with the already-claimed error; and any call strictly after
the deadline fails with the period-over error regardless of proof. -/
theorem claim_lifecycle (H : List Nat → List Nat) (st st3 : ContractState)
    (sender now sender3 now3 : Nat) (proof proof3 : List (List Nat))
    (amount amount3 : Nat) (ac3 : Bool)
    (hg : st.entered = false) (ht : now ≤ st.refundDeadline)
    (hc : st.claimed sender = false)
    (hv : verify H proof st.merkleRoot (claimNode H sender amount) = true)
    (hb : amount ≤ st.balance)
    (hg3 : st3.entered = false) (ht3 : st3.refundDeadline < now3) :
    claimRefund H st sender now proof amount true = .ok (claimedState st sender amount) ∧
    (claimedState st sender amount).claimed sender = true ∧
    claimRefund H (claimedState st sender amount) sender now proof amount true =
      .error .alreadyClaimed ∧
    claimRefund H st3 sender3 now3 proof3 amount3 ac3 = .error .refundPeriodOver := by
  have hlt : ¬ st.refundDeadline < now := by omega
  have hbal : ¬ st.balance < amount := by omega
  refine ⟨?_, ?_, ?_, ?_⟩
  · simp [claimRefund, hg, hlt, hc, hv, callValue, afterClaimMark, hbal, claimedState]
  · simp [claimedState]
  · simp [claimRefund, claimedState, hlt]
  · simp [claimRefund, hg3, ht3]

/-- Claim C4 witness: the lifecycle at the concrete one-leaf deployment
(claim at time 50, deadline 100; the post-deadline clause at time 200). -/
theorem claim_lifecycle_inst :
    claimRefund testHash exState 5 50 [] 7 true = .ok (claimedState exState 5 7) ∧
    (claimedState exState 5 7).claimed 5 = true ∧
    claimRefund testHash (claimedState exState 5 7) 5 50 [] 7 true =
      .error .alreadyClaimed ∧
    claimRefund testHash exState 9 200 [] 7 true = .error .refundPeriodOver :=
  claim_lifecycle testHash exState exState 5 50 9 200 [] [] 7 7 true rfl (by decide)
    rfl (by decide) (by decide) rfl (by decide)

/-- Claim C5: the claim flag is written strictly before the external
transfer: the state handed to the transfer call is `afterClaimMark`, in
which the caller's record already reads true (so the already-claimed
check of any nested call cannot pass), and a nested `claimRefund` during
the transfer is rejected outright by the reentrancy guard. -/
theorem claim_mark_before_transfer (H : List Nat → List Nat) (st : ContractState)
    (sender now now2 : Nat) (proof proof2 : List (List Nat)) (amount amount2 : Nat)
    (accepts ac2 : Bool)
    (hg : st.entered = false) (ht : now ≤ st.refundDeadline)
    (hc : st.claimed sender = false)
    (hv : verify H proof st.merkleRoot (claimNode H sender amount) = true) :
    (afterClaimMark st sender).claimed sender = true ∧
    claimRefund H st sender now proof amount accepts =
      (if (callValue (afterClaimMark st sender) amount accepts).1 = false then
        .error .transferFailed
      else .ok { (callValue (afterClaimMark st sender) amount accepts).2 with
                 entered := false }) ∧
    claimRefund H (afterClaimMark st sender) sender now2 proof2 amount2 ac2 =
      .error .reentrantCall := by
  have hlt : ¬ st.refundDeadline < now := by omega
  refine ⟨by simp [afterClaimMark], ?_, by simp [claimRefund, afterClaimMark]⟩
  unfold claimRefund
  rw [if_neg (by simp [hg]), if_neg hlt, if_neg (by simp [hc]), if_neg (by simp [hv])]

/-- Claim C5 witness: the mid-transaction state at the concrete one-leaf
deployment. -/
theorem claim_mark_before_transfer_inst :
    (afterClaimMark exState 5).claimed 5 = true ∧
    claimRefund testHash exState 5 50 [] 7 true =
      (if (callValue (afterClaimMark exState 5) 7 true).1 = false then
        .error .transferFailed
      else .ok { (callValue (afterClaimMark exState 5) 7 true).2 with
                 entered := false }) ∧
    claimRefund testHash (afterClaimMark exState 5) 5 50 [] 7 true =
      .error .reentrantCall :=
  claim_mark_before_transfer testHash exState 5 50 50 [] [] 7 7 true true rfl
    (by decide) rfl (by decide)

/-- Claim C9: withdraw preconditions in order — a non-owner caller is
rejected; the owner before or at the deadline is rejected with the
period-not-over error; the owner after the deadline with an amount above
the balance is rejected with the insufficient-funds error; otherwise the
amount is paid out to the caller (the owner). -/
theorem withdraw_preconditions (st : ContractState) (sender now amount : Nat)
    (accepts : Bool) :
    (sender ≠ st.owner → withdraw st sender now amount accepts = .error .notOwner) ∧
    (sender = st.owner → now ≤ st.refundDeadline →
      withdraw st sender now amount accepts = .error .refundPeriodNotOver) ∧
    (sender = st.owner → st.refundDeadline < now → st.balance < amount →
      withdraw st sender now amount accepts = .error .insufficientFunds) ∧
    (sender = st.owner → st.refundDeadline < now → amount ≤ st.balance →
      withdraw st sender now amount true =
        .ok { st with balance := st.balance - amount }) := by
  refine ⟨?_, ?_, ?_, ?_⟩
  · intro h
    simp [withdraw, h]
  · intro h1 h2
    have hlt : ¬ st.refundDeadline < now := by omega
    simp [withdraw, h1, hlt]
  · intro h1 h2 h3
    simp [withdraw, h1, h2, h3]
  · intro h1 h2 h3
    have hb : ¬ st.balance < amount := by omega
    simp [withdraw, h1, h2, hb, callValue]

/-- Claim C9 witness: each precondition at the concrete deployment
(owner 1, deadline 100, balance 10). -/
theorem withdraw_preconditions_inst :
    withdraw exState 2 50 1 true = .error .notOwner ∧
    withdraw exState 1 50 1 true = .error .refundPeriodNotOver ∧
    withdraw exState 1 200 11 true = .error .insufficientFunds ∧
    withdraw exState 1 200 4 true = .ok { exState with balance := exState.balance - 4 } :=
  ⟨(withdraw_preconditions exState 2 50 1 true).1 (by decide),
    (withdraw_preconditions exState 1 50 1 true).2.1 rfl (by decide),
    (withdraw_preconditions exState 1 200 11 true).2.2.1 rfl (by decide) (by decide),
    (withdraw_preconditions exState 1 200 4 true).2.2.2 rfl (by decide) (by decide)⟩

/-- Claim C10: `claimRefund` never checks the balance explicitly — a
valid, timely, fresh claim for an amount above the contract balance fails
only at the transfer step with the transfer-failed error (the low-level
call cannot move more value than the contract holds), not with the
insufficient-funds error that `withdraw` raises. -/
theorem claim_no_balance_check (H : List Nat → List Nat) (st : ContractState)
    (sender now : Nat) (proof : List (List Nat)) (amount : Nat) (accepts : Bool)
    (hg : st.entered = false) (ht : now ≤ st.refundDeadline)
    (hc : st.claimed sender = false)
    (hv : verify H proof st.merkleRoot (claimNode H sender amount) = true)
    (hlow : st.balance < amount) :
    claimRefund H st sender now proof amount accepts = .error .transferFailed := by
  have hlt : ¬ st.refundDeadline < now := by omega
  unfold claimRefund
  rw [if_neg (by simp [hg]), if_neg hlt, if_neg (by simp [hc]), if_neg (by simp [hv])]
  have hbal : (afterClaimMark st sender).balance < amount := by
    simpa [afterClaimMark] using hlow
  simp [callValue, hbal]

/-- Claim C10 witness: balance 3 cannot cover the committed amount 7; the
claim fails with the transfer error. -/
theorem claim_no_balance_check_inst :
    claimRefund testHash exStateLow 5 50 [] 7 true = .error .transferFailed :=
  claim_no_balance_check testHash exStateLow 5 50 [] 7 true rfl (by decide) rfl
    (by decide) (by decide)
